import Mathlib

/-!
# Verification of the torch-assimilate ensemble weight-computation core

This file gives a shallow embedding of the weight-computation engine of
torch-assimilate (`pytassim`) and proves / refutes the frozen claims about it.

Embedding conventions:

* A torch 2-D tensor of shape `(a, b)` with `double` entries is embedded as
  `Matrix (Fin a) (Fin b) ℝ`; a 1-D tensor of length `a` as `Fin a → ℝ`.
* `torch.symeig` and `torch.svd` are external LAPACK routines.  They are
  represented by their *results*, passed to the embedded functions as extra
  arguments; theorems constrain these arguments with the predicates
  `IsSymEig` / `IsSVDFor`, which state exactly the contract of the routines
  (orthogonal factors reconstructing the input).
* Division in `ℝ` is Lean's total division (`x / 0 = 0`); the executed code
  only ever divides by regularized, strictly positive eigenvalues in the
  situations the claims describe.
-/

namespace Pytassim

open Matrix BigOperators

noncomputable section

/-- The contract of `torch.symeig(M, eigenvectors=True)` on a symmetric matrix
`M`: it returns eigenvalues `evals` and an orthogonal matrix `evects` of
eigenvectors with `M = evects ⬝ diag(evals) ⬝ evectsᵀ`. -/
def IsSymEig {k : ℕ} (M : Matrix (Fin k) (Fin k) ℝ) (evals : Fin k → ℝ)
    (evects : Matrix (Fin k) (Fin k) ℝ) : Prop :=
  M = evects * Matrix.diagonal evals * evectsᵀ ∧
    evectsᵀ * evects = 1 ∧ evects * evectsᵀ = 1

/-- `pytassim/assimilation/utils.py`, `evd(tensor, reg_value)`:
the steps after the `torch.symeig` call.  The eigensolver output
(`evalsRaw`, `evects`) stands in for the `tensor` argument; `evalsRaw` is
clamped at a minimum of 0 (`evals.clamp(min=0)`), the regularization value is
added, the result is inverted elementwise (`1 / evals`) and the eigenvector
transpose is taken. Returns `(evals, evects, evals_inv, evects_inv)`. -/
def evd {k : ℕ} (evalsRaw : Fin k → ℝ) (evects : Matrix (Fin k) (Fin k) ℝ)
    (reg_value : ℝ) :
    (Fin k → ℝ) × Matrix (Fin k) (Fin k) ℝ × (Fin k → ℝ) ×
      Matrix (Fin k) (Fin k) ℝ :=
  let evals : Fin k → ℝ := fun i => max (evalsRaw i) 0 + reg_value
  let evals_inv : Fin k → ℝ := fun i => 1 / evals i
  (evals, evects, evals_inv, evectsᵀ)

/-- `pytassim/assimilation/utils.py`, `rev_evd(evals, evects, evects_inv)`:
`torch.diagflat` of the eigenvalues, then two `torch.mm` products. -/
def rev_evd {k : ℕ} (evals : Fin k → ℝ) (evects : Matrix (Fin k) (Fin k) ℝ)
    (evects_inv : Matrix (Fin k) (Fin k) ℝ) : Matrix (Fin k) (Fin k) ℝ :=
  let diag_flat_evals := Matrix.diagonal evals
  (evects * diag_flat_evals) * evects_inv

/-- Result record of `ETKFWeightsModule.forward`, which returns the tuple
`(weights, w_mean, w_perts, cov_analysed)`.  `w_mean` is 1-D (of shape `(k,)`)
after the `.squeeze()` call. -/
structure ETKFOut (k : ℕ) where
  weights : Matrix (Fin k) (Fin k) ℝ
  w_mean : Fin k → ℝ
  w_perts : Matrix (Fin k) (Fin k) ℝ
  cov_analysed : Matrix (Fin k) (Fin k) ℝ

namespace ETKFWeightsModule

/-- `pytassim/assimilation/filter/etkf_core.py`,
`ETKFWeightsModule.forward(normed_perts, normed_obs)` with configured
inflation factor `inf_factor`.  `normed_obs` has one row here (the situation
all claims describe; the trailing singleton dimension of
`cov_analysed @ kernel_obs` is removed by `.squeeze()`, giving the 1-D
`w_mean`).  The `torch.symeig` result for `kernel_perts` is passed as
`(evalsRaw, evects)`.  The final line `weights = w_mean + w_perts` is torch
broadcasting of the 1-D `w_mean` (treated as a row vector) against the
`k×k` matrix `w_perts`: entry `(i, j)` is `w_mean j + w_perts i j`. -/
def forward {k m : ℕ} (inf_factor : ℝ)
    (normed_perts : Matrix (Fin k) (Fin m) ℝ)
    (normed_obs : Matrix (Fin 1) (Fin m) ℝ)
    (evalsRaw : Fin k → ℝ) (evects : Matrix (Fin k) (Fin k) ℝ) : ETKFOut k :=
  let ens_size := k
  let reg_value : ℝ := ((ens_size : ℝ) - 1) / inf_factor
  let e := evd evalsRaw evects reg_value
  let evals_inv := e.2.2.1
  let evects_inv := e.2.2.2
  let cov_analysed := rev_evd evals_inv e.2.1 evects_inv
  let kernel_obs := normed_perts * normed_obsᵀ
  let w_mean : Fin k → ℝ := fun i => (cov_analysed * kernel_obs) i 0
  let square_root_einv : Fin k → ℝ :=
    fun i => Real.sqrt (((ens_size : ℝ) - 1) * evals_inv i)
  let w_perts := rev_evd square_root_einv e.2.1 evects_inv
  let weights := Matrix.of fun i j => w_mean j + w_perts i j
  ⟨weights, w_mean, w_perts, cov_analysed⟩

end ETKFWeightsModule

/-- Spec §4.2, written from the spec's words (for the refinement claim C1):
`reg = (k-1)/inf_factor`; `kernel_perts = Pn·Pnᵗ` (the symeig operand, whose
eigensolver output is `(evalsRaw, V)`); `(λ, V, λ⁻¹, Vᵗ) = evd(kernel_perts,
reg)`; `cov_analysed = rev_evd(λ⁻¹, V, Vᵗ)`; `kernel_obs = Pn·ynᵗ`;
`w_mean = cov_analysed·kernel_obs` squeezed; `w_perts =
rev_evd(sqrt((k-1)·λ⁻¹), V, Vᵗ)`; `W = w_mean (broadcast) + w_perts`. -/
def specETKFWeights {k m : ℕ} (inf_factor : ℝ)
    (Pn : Matrix (Fin k) (Fin m) ℝ) (yn : Matrix (Fin 1) (Fin m) ℝ)
    (evalsRaw : Fin k → ℝ) (V : Matrix (Fin k) (Fin k) ℝ) : ETKFOut k :=
  let reg : ℝ := ((k : ℝ) - 1) / inf_factor
  let e := evd evalsRaw V reg
  let lam_inv := e.2.2.1
  let cov_analysed := rev_evd lam_inv e.2.1 e.2.2.2
  let kernel_obs := Pn * ynᵀ
  let w_mean : Fin k → ℝ := fun i => (cov_analysed * kernel_obs) i 0
  let w_perts :=
    rev_evd (fun i => Real.sqrt (((k : ℝ) - 1) * lam_inv i)) e.2.1 e.2.2.2
  ⟨Matrix.of fun i j => w_mean j + w_perts i j, w_mean, w_perts, cov_analysed⟩

section ETKFTheorems

/-- C1: `ETKFWeightsModule.forward` computes exactly the five-step algorithm
of spec §4.2: regularization `(k-1)/inf_factor`, Gram matrix
`kernel_perts = Pn·Pnᵗ` decomposed by `evd`, `cov_analysed` rebuilt by
`rev_evd` from the inverted spectrum, `w_mean = cov_analysed·(Pn·ynᵗ)` with
the trailing singleton dimension squeezed, `w_perts =
rev_evd(sqrt((k-1)·λ⁻¹), V, Vᵗ)`, and returned weights
`W = w_mean (broadcast) + w_perts`. -/
theorem etkf_forward_is_spec_algorithm {k m : ℕ} (inf_factor : ℝ)
    (Pn : Matrix (Fin k) (Fin m) ℝ) (yn : Matrix (Fin 1) (Fin m) ℝ)
    (evalsRaw : Fin k → ℝ) (V : Matrix (Fin k) (Fin k) ℝ) :
    ETKFWeightsModule.forward inf_factor Pn yn evalsRaw V =
      specETKFWeights inf_factor Pn yn evalsRaw V := rfl

/-- C2: `evd` clamps the eigenvalues at a minimum of 0, adds the
regularization value, and returns them together with their elementwise
inverses and the eigenvector transpose; `rev_evd` is the matrix product
`V·diag(λ)·V_inv`. -/
theorem evd_rev_evd_spec {k : ℕ} (evalsRaw lam : Fin k → ℝ)
    (V V_inv : Matrix (Fin k) (Fin k) ℝ) (r : ℝ) :
    evd evalsRaw V r =
      (fun i => max (evalsRaw i) 0 + r, V,
        fun i => (max (evalsRaw i) 0 + r)⁻¹, Vᵀ) ∧
      rev_evd lam V V_inv = V * Matrix.diagonal lam * V_inv := by
  constructor
  · simp only [evd, one_div]
  · simp only [rev_evd, Matrix.mul_assoc]

/-- Conjugating a symmetric eigendecomposition by the eigenvector matrix
recovers the diagonal matrix of eigenvalues. -/
theorem symeig_conj_diag {k : ℕ} {M : Matrix (Fin k) (Fin k) ℝ}
    {evals : Fin k → ℝ} {V : Matrix (Fin k) (Fin k) ℝ}
    (hE : IsSymEig M evals V) :
    Vᵀ * M * V = Matrix.diagonal evals := by
  obtain ⟨hM, hVtV, -⟩ := hE
  calc Vᵀ * M * V = Vᵀ * (V * Matrix.diagonal evals * Vᵀ) * V := by rw [hM]
    _ = (Vᵀ * V) * Matrix.diagonal evals * (Vᵀ * V) := by
        simp only [Matrix.mul_assoc]
    _ = Matrix.diagonal evals := by rw [hVtV]; simp

/-- The eigenvalues reported for a positive-definite matrix are strictly
positive. -/
theorem symeig_evals_pos {k : ℕ} {M : Matrix (Fin k) (Fin k) ℝ}
    {evals : Fin k → ℝ} {V : Matrix (Fin k) (Fin k) ℝ}
    (hM : M.PosDef) (hE : IsSymEig M evals V) (i : Fin k) : 0 < evals i := by
  have hdiag := symeig_conj_diag hE
  set x : Fin k → ℝ := fun j => V j i with hx
  have hx_norm : ∑ j, V j i * V j i = 1 := by
    have h1 : (Vᵀ * V) i i = (1 : Matrix (Fin k) (Fin k) ℝ) i i := by
      rw [hE.2.1]
    simpa [Matrix.mul_apply, Matrix.one_apply] using h1
  have hx_ne : x ≠ 0 := by
    intro h0
    have : ∑ j, V j i * V j i = 0 := by
      refine Finset.sum_eq_zero fun j _ => ?_
      have : x j = 0 := by rw [h0]; rfl
      simp only [hx] at this
      rw [this, mul_zero]
    rw [hx_norm] at this
    exact one_ne_zero this
  have hpos := hM.2 x hx_ne
  have hquad : dotProduct (star x) (M.mulVec x) = (Vᵀ * M * V) i i := by
    simp only [star_trivial, dotProduct, Matrix.mulVec, Matrix.mul_apply,
      Matrix.transpose_apply, dotProduct, hx, Finset.mul_sum, Finset.sum_mul]
    rw [Finset.sum_comm]
    refine Finset.sum_congr rfl fun j _ => Finset.sum_congr rfl fun l _ => ?_
    ring
  rw [hquad, hdiag] at hpos
  simpa using hpos

/-- C3: round-trip spectral reconstruction — for a symmetric positive-definite
matrix `M`, applying `rev_evd` to the eigenvalues, eigenvectors and
eigenvector-inverse returned by `evd` at regularization 0 yields `M` again
(exactly, hence within the claimed `1e-10` tolerance). -/
theorem evd_rev_evd_roundtrip {k : ℕ} (M : Matrix (Fin k) (Fin k) ℝ)
    (evals : Fin k → ℝ) (V : Matrix (Fin k) (Fin k) ℝ)
    (hM : M.PosDef) (hE : IsSymEig M evals V) :
    rev_evd (evd evals V 0).1 (evd evals V 0).2.1 (evd evals V 0).2.2.2 = M := by
  have hpos := symeig_evals_pos hM hE
  have hclamp : (fun i => max (evals i) 0 + 0) = evals := by
    funext i
    rw [add_zero, max_eq_left (le_of_lt (hpos i))]
  show rev_evd (fun i => max (evals i) 0 + 0) V Vᵀ = M
  rw [hclamp, rev_evd]
  exact hE.1.symm

/-- Witness for C3 at the concrete positive-definite matrix `M = 1`. -/
theorem evd_rev_evd_roundtrip_witness :
    (1 : Matrix (Fin 2) (Fin 2) ℝ).PosDef ∧
      IsSymEig (1 : Matrix (Fin 2) (Fin 2) ℝ) (fun _ => 1) 1 ∧
      rev_evd (evd (fun _ => (1 : ℝ)) (1 : Matrix (Fin 2) (Fin 2) ℝ) 0).1
        (evd (fun _ => (1 : ℝ)) (1 : Matrix (Fin 2) (Fin 2) ℝ) 0).2.1
        (evd (fun _ => (1 : ℝ)) (1 : Matrix (Fin 2) (Fin 2) ℝ) 0).2.2.2 = 1 := by
  have hE : IsSymEig (1 : Matrix (Fin 2) (Fin 2) ℝ) (fun _ => 1) 1 := by
    refine ⟨?_, by simp, by simp⟩
    simp [Matrix.diagonal_one]
  exact ⟨Matrix.PosDef.one, hE,
    evd_rev_evd_roundtrip 1 (fun _ => 1) 1 Matrix.PosDef.one hE⟩

/-- C4: with `inf_factor = 1` and a zero normalized observation matrix, the
ETKF weight computation returns `w_mean = 0` and weights equal to `w_perts`
(a pure spread adjustment with no mean shift). -/
theorem etkf_zero_innovation {k m : ℕ} (_hk : 2 ≤ k)
    (Pn : Matrix (Fin k) (Fin m) ℝ)
    (evalsRaw : Fin k → ℝ) (V : Matrix (Fin k) (Fin k) ℝ) :
    (ETKFWeightsModule.forward 1 Pn 0 evalsRaw V).w_mean = 0 ∧
      (ETKFWeightsModule.forward 1 Pn 0 evalsRaw V).weights =
        (ETKFWeightsModule.forward 1 Pn 0 evalsRaw V).w_perts := by
  have hmean : (ETKFWeightsModule.forward 1 Pn 0 evalsRaw V).w_mean = 0 := by
    funext i
    simp [ETKFWeightsModule.forward, Matrix.transpose_zero, Matrix.mul_zero]
  refine ⟨hmean, ?_⟩
  ext i j
  show (ETKFWeightsModule.forward 1 Pn 0 evalsRaw V).w_mean j +
      (ETKFWeightsModule.forward 1 Pn 0 evalsRaw V).w_perts i j =
    (ETKFWeightsModule.forward 1 Pn 0 evalsRaw V).w_perts i j
  rw [hmean]
  simp

/-- Witness for C4 at a concrete `k = 2`, `m = 1` input. -/
theorem etkf_zero_innovation_witness :
    2 ≤ 2 ∧
      (ETKFWeightsModule.forward 1 (Matrix.of ![![(1 : ℝ)], ![0]]) 0
        ![0, 0] 1).w_mean = 0 ∧
      (ETKFWeightsModule.forward 1 (Matrix.of ![![(1 : ℝ)], ![0]]) 0
        ![0, 0] 1).weights =
        (ETKFWeightsModule.forward 1 (Matrix.of ![![(1 : ℝ)], ![0]]) 0
          ![0, 0] 1).w_perts := by
  have h := @etkf_zero_innovation 2 1 le_rfl
    (Matrix.of ![![(1 : ℝ)], ![0]]) ![0, 0] 1
  exact ⟨le_rfl, h.1, h.2⟩

end ETKFTheorems

/-- The Frobenius norm of a matrix: square root of the sum of squared
entries (`torch.norm` with its default `fro` mode). -/
def frobeniusNorm {a b : ℕ} (A : Matrix (Fin a) (Fin b) ℝ) : ℝ :=
  Real.sqrt (∑ i, ∑ j, (A i j) ^ 2)

section Inflation

/-- Sum of squared entries of `V·diag(d)·Vᵗ` for orthogonal `V`: the sum of
the squared diagonal values. -/
theorem sum_sq_conj_diagonal {k : ℕ} (d : Fin k → ℝ)
    (V : Matrix (Fin k) (Fin k) ℝ) (hV : Vᵀ * V = 1) :
    ∑ i, ∑ j, ((V * Matrix.diagonal d * Vᵀ) i j) ^ 2 = ∑ i, (d i) ^ 2 := by
  set A := V * Matrix.diagonal d * Vᵀ with hA
  have hAt : Aᵀ = A := by
    rw [hA, Matrix.transpose_mul, Matrix.transpose_mul, Matrix.transpose_transpose,
      Matrix.diagonal_transpose, Matrix.mul_assoc]
  have hAtA : Aᵀ * A = V * Matrix.diagonal (fun i => d i ^ 2) * Vᵀ := by
    rw [hAt, hA]
    calc (V * Matrix.diagonal d * Vᵀ) * (V * Matrix.diagonal d * Vᵀ)
        = V * Matrix.diagonal d * (Vᵀ * V) * Matrix.diagonal d * Vᵀ := by
          simp only [Matrix.mul_assoc]
      _ = V * (Matrix.diagonal d * Matrix.diagonal d) * Vᵀ := by
          rw [hV]; simp only [Matrix.mul_one, Matrix.mul_assoc]
      _ = V * Matrix.diagonal (fun i => d i ^ 2) * Vᵀ := by
          rw [Matrix.diagonal_mul_diagonal]
          congr 1
          congr 1
          funext i
          ring
  have htrace : Matrix.trace (Aᵀ * A) = ∑ i, (d i) ^ 2 := by
    rw [hAtA, Matrix.trace_mul_comm, ← Matrix.mul_assoc, hV, Matrix.one_mul,
      Matrix.trace_diagonal]
  calc ∑ i, ∑ j, (A i j) ^ 2 = ∑ j, ∑ i, (A i j) ^ 2 := Finset.sum_comm
    _ = Matrix.trace (Aᵀ * A) := by
        simp only [Matrix.trace, Matrix.diag, Matrix.mul_apply,
          Matrix.transpose_apply, sq]
    _ = ∑ i, (d i) ^ 2 := htrace

/-- The `w_perts` component of the ETKF weight computation, unfolded. -/
theorem etkf_forward_w_perts {k m : ℕ} (ρ : ℝ)
    (Pn : Matrix (Fin k) (Fin m) ℝ) (yn : Matrix (Fin 1) (Fin m) ℝ)
    (evalsRaw : Fin k → ℝ) (V : Matrix (Fin k) (Fin k) ℝ) :
    (ETKFWeightsModule.forward ρ Pn yn evalsRaw V).w_perts =
      rev_evd (fun i => Real.sqrt (((k : ℝ) - 1) *
        (1 / (max (evalsRaw i) 0 + ((k : ℝ) - 1) / ρ)))) V Vᵀ := rfl

/-- C5: strict inflation monotonicity — with everything else fixed, a larger
inflation factor yields a strictly larger Frobenius norm of the returned
`w_perts` (more inflation, more spread). -/
theorem etkf_inflation_monotonicity {k m : ℕ} (hk : 2 ≤ k)
    (Pn : Matrix (Fin k) (Fin m) ℝ) (yn : Matrix (Fin 1) (Fin m) ℝ)
    (evalsRaw : Fin k → ℝ) (V : Matrix (Fin k) (Fin k) ℝ)
    (hE : IsSymEig (Pn * Pnᵀ) evalsRaw V)
    (ρ1 ρ2 : ℝ) (hρ1 : 0 < ρ1) (hρ12 : ρ1 < ρ2) :
    frobeniusNorm (ETKFWeightsModule.forward ρ1 Pn yn evalsRaw V).w_perts <
      frobeniusNorm (ETKFWeightsModule.forward ρ2 Pn yn evalsRaw V).w_perts := by
  have hρ2 : 0 < ρ2 := lt_trans hρ1 hρ12
  have hk1 : (0 : ℝ) < (k : ℝ) - 1 := by
    have : (2 : ℝ) ≤ (k : ℝ) := by exact_mod_cast hk
    linarith
  set d1 : Fin k → ℝ := fun i => Real.sqrt (((k : ℝ) - 1) *
    (1 / (max (evalsRaw i) 0 + ((k : ℝ) - 1) / ρ1))) with hd1
  set d2 : Fin k → ℝ := fun i => Real.sqrt (((k : ℝ) - 1) *
    (1 / (max (evalsRaw i) 0 + ((k : ℝ) - 1) / ρ2))) with hd2
  have hlam : ∀ (ρ : ℝ), 0 < ρ → ∀ i : Fin k,
      0 < max (evalsRaw i) 0 + ((k : ℝ) - 1) / ρ := by
    intro ρ hρ i
    have h1 : (0 : ℝ) ≤ max (evalsRaw i) 0 := le_max_right _ _
    have h2 : 0 < ((k : ℝ) - 1) / ρ := div_pos hk1 hρ
    linarith
  have harg : ∀ (ρ : ℝ), 0 < ρ → ∀ i : Fin k,
      0 ≤ ((k : ℝ) - 1) * (1 / (max (evalsRaw i) 0 + ((k : ℝ) - 1) / ρ)) := by
    intro ρ hρ i
    have := hlam ρ hρ i
    positivity
  have hsum : ∑ i, (d1 i) ^ 2 < ∑ i, (d2 i) ^ 2 := by
    have hne : (Finset.univ : Finset (Fin k)).Nonempty := by
      have hkpos : 0 < k := lt_of_lt_of_le two_pos hk
      exact ⟨⟨0, hkpos⟩, Finset.mem_univ _⟩
    refine Finset.sum_lt_sum_of_nonempty hne fun i _ => ?_
    rw [hd1, hd2, Real.sq_sqrt (harg ρ1 hρ1 i), Real.sq_sqrt (harg ρ2 hρ2 i)]
    have hlt : max (evalsRaw i) 0 + ((k : ℝ) - 1) / ρ2 <
        max (evalsRaw i) 0 + ((k : ℝ) - 1) / ρ1 := by
      have := div_lt_div_of_pos_left hk1 hρ1 hρ12
      linarith
    have hinv : 1 / (max (evalsRaw i) 0 + ((k : ℝ) - 1) / ρ1) <
        1 / (max (evalsRaw i) 0 + ((k : ℝ) - 1) / ρ2) :=
      one_div_lt_one_div_of_lt (hlam ρ2 hρ2 i) hlt
    exact mul_lt_mul_of_pos_left hinv hk1
  have hVo := hE.2.1
  rw [etkf_forward_w_perts, etkf_forward_w_perts]
  show Real.sqrt (∑ i, ∑ j, ((V * Matrix.diagonal d1 * Vᵀ) i j) ^ 2) <
    Real.sqrt (∑ i, ∑ j, ((V * Matrix.diagonal d2 * Vᵀ) i j) ^ 2)
  rw [sum_sq_conj_diagonal d1 V hVo, sum_sq_conj_diagonal d2 V hVo]
  exact Real.sqrt_lt_sqrt (Finset.sum_nonneg fun i _ => sq_nonneg _) hsum

/-- Witness for C5 at `k = 2`, `Pn = [[1,0],[0,2]]`, `ρ1 = 1 < ρ2 = 2`. -/
theorem etkf_inflation_monotonicity_witness :
    2 ≤ 2 ∧
      IsSymEig ((Matrix.of ![![(1 : ℝ), 0], ![0, 2]]) *
        (Matrix.of ![![(1 : ℝ), 0], ![0, 2]])ᵀ) ![1, 4] 1 ∧
      (0 : ℝ) < 1 ∧ (1 : ℝ) < 2 ∧
      frobeniusNorm (ETKFWeightsModule.forward 1
          (Matrix.of ![![(1 : ℝ), 0], ![0, 2]]) 0 ![1, 4] 1).w_perts <
        frobeniusNorm (ETKFWeightsModule.forward 2
          (Matrix.of ![![(1 : ℝ), 0], ![0, 2]]) 0 ![1, 4] 1).w_perts := by
  have hE : IsSymEig ((Matrix.of ![![(1 : ℝ), 0], ![0, 2]]) *
      (Matrix.of ![![(1 : ℝ), 0], ![0, 2]])ᵀ) ![1, 4] 1 := by
    refine ⟨?_, by simp, by simp⟩
    ext i j
    fin_cases i <;> fin_cases j <;>
      simp [Matrix.mul_apply, Matrix.transpose_apply, Fin.sum_univ_two,
        Matrix.diagonal, Matrix.one_apply, Matrix.vecHead, Matrix.vecTail] <;>
      norm_num
  exact ⟨le_rfl, hE, one_pos, one_lt_two,
    etkf_inflation_monotonicity le_rfl _ _ _ _ hE 1 2 one_pos one_lt_two⟩

end Inflation

section ConcreteScenario

/-- Entry formula for `rev_evd`. -/
theorem rev_evd_apply {k : ℕ} (evals : Fin k → ℝ)
    (V W : Matrix (Fin k) (Fin k) ℝ) (i j : Fin k) :
    rev_evd evals V W i j = ∑ l, V i l * evals l * W l j := by
  show ((V * Matrix.diagonal evals) * W) i j = _
  rw [Matrix.mul_apply]
  refine Finset.sum_congr rfl fun l _ => ?_
  rw [Matrix.mul_diagonal]

/-- The `w_mean` component of the ETKF weight computation, unfolded. -/
theorem etkf_forward_w_mean {k m : ℕ} (ρ : ℝ)
    (Pn : Matrix (Fin k) (Fin m) ℝ) (yn : Matrix (Fin 1) (Fin m) ℝ)
    (evalsRaw : Fin k → ℝ) (V : Matrix (Fin k) (Fin k) ℝ) :
    (ETKFWeightsModule.forward ρ Pn yn evalsRaw V).w_mean = fun i =>
      (rev_evd (fun l => 1 / (max (evalsRaw l) 0 + ((k : ℝ) - 1) / ρ)) V Vᵀ *
        (Pn * ynᵀ)) i 0 := rfl

/-- The `weights` component of the ETKF weight computation, unfolded: torch
broadcasting adds the squeezed 1-D `w_mean` as a row vector. -/
theorem etkf_forward_weights {k m : ℕ} (ρ : ℝ)
    (Pn : Matrix (Fin k) (Fin m) ℝ) (yn : Matrix (Fin 1) (Fin m) ℝ)
    (evalsRaw : Fin k → ℝ) (V : Matrix (Fin k) (Fin k) ℝ) (i j : Fin k) :
    (ETKFWeightsModule.forward ρ Pn yn evalsRaw V).weights i j =
      (ETKFWeightsModule.forward ρ Pn yn evalsRaw V).w_mean j +
        (ETKFWeightsModule.forward ρ Pn yn evalsRaw V).w_perts i j := rfl

/-- The `normed_perts` matrix of the spec §8 concrete scenario:
`[[1], [0], [-1]]`. -/
def c8Perts : Matrix (Fin 3) (Fin 1) ℝ := Matrix.of ![![1], ![0], ![-1]]

/-- The `normed_obs` matrix of the concrete scenario: `[[0.5]]`. -/
def c8Obs : Matrix (Fin 1) (Fin 1) ℝ := Matrix.of ![![0.5]]

/-- Eigenvalues of `kernel_perts = c8Perts·c8Pertsᵗ` in the ascending order
`torch.symeig` uses. -/
def c8Evals : Fin 3 → ℝ := ![0, 0, 2]

/-- Orthonormal eigenvectors (columns) of `kernel_perts` matching
`c8Evals`. -/
def c8V : Matrix (Fin 3) (Fin 3) ℝ :=
  Matrix.of ![![0, Real.sqrt 2 / 2, Real.sqrt 2 / 2],
    ![1, 0, 0],
    ![0, Real.sqrt 2 / 2, -(Real.sqrt 2 / 2)]]

/-- `(c8Evals, c8V)` is a valid symmetric eigendecomposition of the scenario's
Gram matrix. -/
theorem c8_symeig : IsSymEig (c8Perts * c8Pertsᵀ) c8Evals c8V := by
  have h2 : Real.sqrt 2 ^ 2 = 2 := Real.sq_sqrt (by norm_num)
  refine ⟨?_, ?_, ?_⟩
  · ext i j
    rw [show c8V * Matrix.diagonal c8Evals * c8Vᵀ =
      rev_evd c8Evals c8V c8Vᵀ from rfl, rev_evd_apply]
    fin_cases i <;> fin_cases j <;>
      simp [c8V, c8Evals, c8Perts, Matrix.mul_apply, Matrix.transpose_apply,
        Fin.sum_univ_three, Fin.sum_univ_one, Matrix.vecHead, Matrix.vecTail] <;>
      ring_nf <;> simp [h2] <;> ring
  · ext i j
    fin_cases i <;> fin_cases j <;>
      simp [c8V, Matrix.mul_apply, Matrix.transpose_apply, Fin.sum_univ_three,
        Matrix.one_apply, Matrix.vecHead, Matrix.vecTail] <;>
      ring_nf <;> simp [h2] <;> ring
  · ext i j
    fin_cases i <;> fin_cases j <;>
      simp [c8V, Matrix.mul_apply, Matrix.transpose_apply, Fin.sum_univ_three,
        Matrix.one_apply, Matrix.vecHead, Matrix.vecTail] <;>
      ring_nf <;> simp [h2] <;> ring

/-- The regularized inverse eigenvalues of the scenario. -/
theorem c8_evals_inv :
    (fun l => 1 / (max (c8Evals l) 0 + (((3 : ℕ) : ℝ) - 1) / 1)) =
      ![1 / 2, 1 / 2, 1 / 4] := by
  funext l
  fin_cases l <;> norm_num [c8Evals]

/-- The analysed covariance of the scenario is `(kernel_perts + 2·I)⁻¹`. -/
theorem c8_cov : rev_evd ![1 / 2, 1 / 2, 1 / 4] c8V c8Vᵀ =
    Matrix.of ![![3 / 8, 0, 1 / 8], ![0, 1 / 2, 0], ![1 / 8, 0, 3 / 8]] := by
  have h2 : Real.sqrt 2 ^ 2 = 2 := Real.sq_sqrt (by norm_num)
  ext i j
  rw [rev_evd_apply]
  fin_cases i <;> fin_cases j <;>
    simp [c8V, Matrix.transpose_apply, Fin.sum_univ_three,
      Matrix.vecHead, Matrix.vecTail] <;>
    ring_nf <;> simp [h2] <;> ring

/-- `w_mean` of the concrete scenario evaluates to `[0.125, 0, -0.125]`. -/
theorem c8_w_mean :
    (ETKFWeightsModule.forward 1 c8Perts c8Obs c8Evals c8V).w_mean =
      ![1 / 8, 0, -(1 / 8)] := by
  rw [etkf_forward_w_mean, c8_evals_inv, c8_cov]
  funext i
  fin_cases i <;>
    simp [c8Perts, c8Obs, Matrix.mul_apply, Matrix.transpose_apply,
      Fin.sum_univ_three, Fin.sum_univ_one, Matrix.vecHead, Matrix.vecTail] <;>
    norm_num

/-- The square-rooted eigenvalues entering `w_perts` in the scenario. -/
theorem c8_sqrt_evals :
    (fun i => Real.sqrt ((((3 : ℕ) : ℝ) - 1) *
      (1 / (max (c8Evals i) 0 + (((3 : ℕ) : ℝ) - 1) / 1)))) =
      ![1, 1, Real.sqrt 2 / 2] := by
  have hhalf : Real.sqrt (1 / 2) = Real.sqrt 2 / 2 := by
    rw [show (1 / 2 : ℝ) = (Real.sqrt 2 / 2) ^ 2 by
      rw [div_pow, Real.sq_sqrt] <;> norm_num]
    exact Real.sqrt_sq (by positivity)
  have hinv : (Real.sqrt 2)⁻¹ = Real.sqrt 2 / 2 := by
    rw [inv_eq_one_div, div_eq_div_iff (by positivity) (by norm_num : (2:ℝ) ≠ 0),
      one_mul, Real.mul_self_sqrt (by norm_num)]
  funext i
  fin_cases i <;> norm_num [c8Evals, hhalf, hinv]

/-- `w_perts` of the concrete scenario, evaluated in closed form. -/
theorem c8_w_perts :
    (ETKFWeightsModule.forward 1 c8Perts c8Obs c8Evals c8V).w_perts =
      Matrix.of ![![1 / 2 + Real.sqrt 2 / 4, 0, 1 / 2 - Real.sqrt 2 / 4],
        ![0, 1, 0],
        ![1 / 2 - Real.sqrt 2 / 4, 0, 1 / 2 + Real.sqrt 2 / 4]] := by
  have h2 : Real.sqrt 2 ^ 2 = 2 := Real.sq_sqrt (by norm_num)
  have h3 : Real.sqrt 2 ^ 3 = 2 * Real.sqrt 2 := by rw [pow_succ, h2]
  rw [etkf_forward_w_perts, c8_sqrt_evals]
  ext i j
  rw [rev_evd_apply]
  fin_cases i <;> fin_cases j <;>
    simp [c8V, Matrix.transpose_apply, Fin.sum_univ_three,
      Matrix.vecHead, Matrix.vecTail] <;>
    ring_nf <;> simp [h2, h3] <;> ring

/-- C8 counterexample: at the spec §8 scenario (`k = 3`,
`normed_perts = [[1],[0],[-1]]`, `normed_obs = [[0.5]]`, `inf_factor = 1`)
the code returns `w_mean = [0.125, 0, -0.125]` — not the claimed
`[0.25, 0, -0.25]` — and the column sums `W.sum(axis=0)` are
`[1.375, 1, 0.625]`, not `[1, 1, 1]`. -/
theorem etkf_concrete_scenario_counterexample :
    IsSymEig (c8Perts * c8Pertsᵀ) c8Evals c8V ∧
      (ETKFWeightsModule.forward 1 c8Perts c8Obs c8Evals c8V).w_mean =
        ![1 / 8, 0, -(1 / 8)] ∧
      (ETKFWeightsModule.forward 1 c8Perts c8Obs c8Evals c8V).w_mean 0 ≠
        1 / 4 ∧
      (∑ i, (ETKFWeightsModule.forward 1 c8Perts c8Obs c8Evals c8V).weights
        i 0) = 11 / 8 ∧
      (∑ i, (ETKFWeightsModule.forward 1 c8Perts c8Obs c8Evals c8V).weights
        i 0) ≠ 1 := by
  have hsum : (∑ i, (ETKFWeightsModule.forward 1 c8Perts c8Obs c8Evals
      c8V).weights i 0) = 11 / 8 := by
    rw [Fin.sum_univ_three]
    simp only [etkf_forward_weights, c8_w_mean, c8_w_perts]
    norm_num [Matrix.vecHead, Matrix.vecTail]
    ring
  refine ⟨c8_symeig, c8_w_mean, ?_, hsum, ?_⟩
  · rw [c8_w_mean]
    norm_num
  · rw [hsum]; norm_num

/-- C8 amended: at the spec §8 scenario the code returns
`w_mean = [0.125, 0, -0.125]`, and the sum identity holds along axis 1
(row sums): `W.sum(axis=1) = [1, 1, 1]`, because the squeezed `w_mean`
broadcasts as a row vector and each row of `w_perts` sums to 1. -/
theorem etkf_concrete_scenario_amended :
    IsSymEig (c8Perts * c8Pertsᵀ) c8Evals c8V ∧
      (ETKFWeightsModule.forward 1 c8Perts c8Obs c8Evals c8V).w_mean =
        ![1 / 8, 0, -(1 / 8)] ∧
      ∀ i, (∑ j, (ETKFWeightsModule.forward 1 c8Perts c8Obs c8Evals
        c8V).weights i j) = 1 := by
  refine ⟨c8_symeig, c8_w_mean, fun i => ?_⟩
  rw [Fin.sum_univ_three]
  simp only [etkf_forward_weights, c8_w_mean, c8_w_perts]
  fin_cases i <;> norm_num [Matrix.vecHead, Matrix.vecTail] <;> ring

end ConcreteScenario

/-!
## IEnKS core (`pytassim/core/ienks.py`)

`pytassim/core/ienks.py` imports `svd`, `rev_svd`, `matrix_product` and
`diagonal_add` from `pytassim/core/utils.py` and `_test_sizes` /
`_view_as_2d` from `pytassim/core/base.py`; neither file is among the
provided sources, so those helpers are modelled from the spec below.
-/

/-- The contract of `torch.svd` on a square matrix `M`: orthogonal `u`, `v`
and nonnegative singular values `s` with `M = u ⬝ diag(s) ⬝ vᵀ`. -/
def IsSVDFor {k : ℕ} (M : Matrix (Fin k) (Fin k) ℝ)
    (u : Matrix (Fin k) (Fin k) ℝ) (s : Fin k → ℝ)
    (v : Matrix (Fin k) (Fin k) ℝ) : Prop :=
  M = u * Matrix.diagonal s * vᵀ ∧
    uᵀ * u = 1 ∧ u * uᵀ = 1 ∧ vᵀ * v = 1 ∧ v * vᵀ = 1 ∧ ∀ i, 0 ≤ s i

/-- Modelled from the spec: `svd(matrix, reg_value)` of the missing
`pytassim/core/utils.py` — spec §4.1 calls it "the analogous non-symmetric
decomposition used by IEnKS".  As for `evd`, the `torch.svd` call is
represented by its output `(u, sRaw, v)` (constrained by `IsSVDFor` in
theorems); analogously to `evd` the singular values are clamped at a minimum
of 0 and the regularization value is added.  The unrecorded default
`reg_value` is modelled as 0, matching the in-source default of `evd`. -/
def svd {k : ℕ} (u : Matrix (Fin k) (Fin k) ℝ) (sRaw : Fin k → ℝ)
    (v : Matrix (Fin k) (Fin k) ℝ) (reg_value : ℝ) :
    Matrix (Fin k) (Fin k) ℝ × (Fin k → ℝ) × Matrix (Fin k) (Fin k) ℝ :=
  (u, fun i => max (sRaw i) 0 + reg_value, v)

/-- Modelled from the spec: `rev_svd(u, s, v)` of the missing
`pytassim/core/utils.py` — the reverse reconstruction `u ⬝ diag(s) ⬝ vᵀ`
(the `torch.svd` convention, mirroring `rev_evd` of §4.1). -/
def rev_svd {k : ℕ} (u : Matrix (Fin k) (Fin k) ℝ) (s : Fin k → ℝ)
    (v : Matrix (Fin k) (Fin k) ℝ) : Matrix (Fin k) (Fin k) ℝ :=
  u * Matrix.diagonal s * vᵀ

/-- Modelled from the spec: `matrix_product(x, y)` of the missing
`pytassim/core/utils.py` — the product `x ⬝ yᵀ`, as fixed by its two call
sites in `ienks.py` against spec §4.5: `matrix_product(dh_dw, dh_dw)` must
be `dH/dW·dH/dWᵗ` (step 5) and `matrix_product(dh_dw, dlobs_dh)` must have
the shape of the gradient (step 4). -/
def matrix_product {a b c : ℕ} (x : Matrix (Fin a) (Fin b) ℝ)
    (y : Matrix (Fin c) (Fin b) ℝ) : Matrix (Fin a) (Fin c) ℝ :=
  x * yᵀ

/-- Modelled from the spec: `diagonal_add(matrix, value)` of the missing
`pytassim/core/utils.py` — adds `value` to the diagonal (spec §4.5 step 1
"subtract 1 from the diagonal", step 5 "+ (k-1)·I"). -/
def diagonal_add {k : ℕ} (M : Matrix (Fin k) (Fin k) ℝ) (value : ℝ) :
    Matrix (Fin k) (Fin k) ℝ :=
  M + value • (1 : Matrix (Fin k) (Fin k) ℝ)

namespace IEnKSTransformModule

/-- `IEnKSTransformModule._split_weights`: subtract 1 from the diagonal,
take the row mean (`mean(dim=1, keepdim=True)`), and split the weights into
the mean column and the remainder (`weights - weights_mean`, broadcast
along columns). -/
def split_weights {k : ℕ} (weights : Matrix (Fin k) (Fin k) ℝ) :
    Matrix (Fin k) (Fin 1) ℝ × Matrix (Fin k) (Fin k) ℝ :=
  let weights_deviation := diagonal_add weights (-1)
  let weights_mean : Matrix (Fin k) (Fin 1) ℝ :=
    Matrix.of fun i _ => (∑ j, weights_deviation i j) / k
  let weights_perts := Matrix.of fun i j => weights i j - weights_mean i 0
  (weights_mean, weights_perts)

/-- `IEnKSTransformModule._decompose_weights`: svd of the weight
perturbations; returns the weight mean, the transposed reconstruction from
inverted singular values (`w_perts_inv`) and the ensemble-space precision
`w_prec = rev_svd(u, s_inv², u) * (k-1)`.  The `torch.svd` output for
`w_perts` is passed as `(u1, s1, v1)`. -/
def decompose_weights {k : ℕ} (weights : Matrix (Fin k) (Fin k) ℝ)
    (u1 : Matrix (Fin k) (Fin k) ℝ) (s1 : Fin k → ℝ)
    (v1 : Matrix (Fin k) (Fin k) ℝ) :
    Matrix (Fin k) (Fin 1) ℝ × Matrix (Fin k) (Fin k) ℝ ×
      Matrix (Fin k) (Fin k) ℝ :=
  let wm_wp := split_weights weights
  let usv := svd u1 s1 v1 0
  let s_inv : Fin k → ℝ := fun i => 1 / usv.2.1 i
  let s_prec : Fin k → ℝ := fun i => (s_inv i) ^ 2
  let w_perts_inv := (rev_svd usv.1 s_inv usv.2.2)ᵀ
  let w_prec := ((k : ℝ) - 1) • rev_svd usv.1 s_prec usv.1
  (wm_wp.1, w_perts_inv, w_prec)

/-- `IEnKSTransformModule._get_dh_dw`: the tangent-linear observation
Jacobian `w_perts_inv ⬝ normed_perts`. -/
def get_dh_dw {k m : ℕ} (normed_perts : Matrix (Fin k) (Fin m) ℝ)
    (weights_perts_inv : Matrix (Fin k) (Fin k) ℝ) :
    Matrix (Fin k) (Fin m) ℝ :=
  weights_perts_inv * normed_perts

/-- `IEnKSTransformModule._get_gradient`:
`grad = (k-1)·w_mean + dh_dw ⬝ (-normed_obs)ᵗ`. -/
def get_gradient {k m : ℕ} (w_mean : Matrix (Fin k) (Fin 1) ℝ)
    (dh_dw : Matrix (Fin k) (Fin m) ℝ) (normed_obs : Matrix (Fin 1) (Fin m) ℝ) :
    Matrix (Fin k) (Fin 1) ℝ :=
  let dlobs_dh := -normed_obs
  let grad_obs := matrix_product dh_dw dlobs_dh
  let grad_back := ((k : ℝ) - 1) • w_mean
  grad_back + grad_obs

/-- `IEnKSTransformModule._update_covariance`: damp the precision with the
learning rate, decompose it (`torch.svd` output passed as `(u2, s2, v2)`),
and rebuild the covariance and the square-root perturbation factor. -/
def update_covariance {k m : ℕ} (tau : ℝ) (w_prec : Matrix (Fin k) (Fin k) ℝ)
    (dh_dw : Matrix (Fin k) (Fin m) ℝ) (u2 : Matrix (Fin k) (Fin k) ℝ)
    (s2 : Fin k → ℝ) (v2 : Matrix (Fin k) (Fin k) ℝ) :
    Matrix (Fin k) (Fin k) ℝ × Matrix (Fin k) (Fin k) ℝ :=
  let new_prec := diagonal_add (matrix_product dh_dw dh_dw) ((k : ℝ) - 1)
  let updated_prec := (1 - tau) • w_prec + tau • new_prec
  let usv := svd u2 s2 v2 0
  let s_inv : Fin k → ℝ := fun i => 1 / usv.2.1 i
  let weights_cov := rev_svd usv.1 s_inv usv.2.2
  let s_perts : Fin k → ℝ := fun i => Real.sqrt (s_inv i * ((k : ℝ) - 1))
  let weights_perts := rev_svd usv.1 s_perts usv.2.2
  (weights_cov, weights_perts)

/-- The `updated_prec` intermediate of `_update_covariance` reached from the
module inputs (exposed so theorems can state the validity hypothesis of the
second `torch.svd` oracle). -/
def updated_prec_of {k m : ℕ} (tau : ℝ)
    (weights : Matrix (Fin k) (Fin k) ℝ)
    (normed_perts : Matrix (Fin k) (Fin m) ℝ)
    (u1 : Matrix (Fin k) (Fin k) ℝ) (s1 : Fin k → ℝ)
    (v1 : Matrix (Fin k) (Fin k) ℝ) : Matrix (Fin k) (Fin k) ℝ :=
  let dec := decompose_weights weights u1 s1 v1
  let dh_dw := get_dh_dw normed_perts dec.2.1
  (1 - tau) • dec.2.2 +
    tau • diagonal_add (matrix_product dh_dw dh_dw) ((k : ℝ) - 1)

/-- `IEnKSTransformModule._update_weights`: decompose the weights, build the
Jacobian and gradient, update the covariance, and take the damped Newton
step on the weight mean.  Returns `(w_mean, w_perts)`. -/
def update_weights {k m : ℕ} (tau : ℝ)
    (weights : Matrix (Fin k) (Fin k) ℝ)
    (normed_perts : Matrix (Fin k) (Fin m) ℝ)
    (normed_obs : Matrix (Fin 1) (Fin m) ℝ)
    (u1 : Matrix (Fin k) (Fin k) ℝ) (s1 : Fin k → ℝ)
    (v1 : Matrix (Fin k) (Fin k) ℝ)
    (u2 : Matrix (Fin k) (Fin k) ℝ) (s2 : Fin k → ℝ)
    (v2 : Matrix (Fin k) (Fin k) ℝ) :
    Matrix (Fin k) (Fin 1) ℝ × Matrix (Fin k) (Fin k) ℝ :=
  let dec := decompose_weights weights u1 s1 v1
  let dh_dw := get_dh_dw normed_perts dec.2.1
  let grad := get_gradient dec.1 dh_dw normed_obs
  let cov_perts := update_covariance tau dec.2.2 dh_dw u2 s2 v2
  let delta_weight := cov_perts.1 * grad
  let w_mean := dec.1 - tau • delta_weight
  (w_mean, cov_perts.2)

/-- `IEnKSTransformModule.forward`: after the (spec-modelled) `_test_sizes`
shape check — always satisfied in this dimension-typed embedding — and
`_view_as_2d` — the identity on the 2-D matrices used here — the weights
are updated only if the observation dimension `m` is positive
(`normed_perts.shape[-1] > 0`); the new weights add the mean column
(broadcast along columns, `keepdim=True`) to the perturbation part.  With
`m = 0` the input weights are returned unchanged. -/
def forward {k m : ℕ} (tau : ℝ)
    (weights : Matrix (Fin k) (Fin k) ℝ)
    (normed_perts : Matrix (Fin k) (Fin m) ℝ)
    (normed_obs : Matrix (Fin 1) (Fin m) ℝ)
    (u1 : Matrix (Fin k) (Fin k) ℝ) (s1 : Fin k → ℝ)
    (v1 : Matrix (Fin k) (Fin k) ℝ)
    (u2 : Matrix (Fin k) (Fin k) ℝ) (s2 : Fin k → ℝ)
    (v2 : Matrix (Fin k) (Fin k) ℝ) : Matrix (Fin k) (Fin k) ℝ :=
  if 0 < m then
    let wm_wp := update_weights tau weights normed_perts normed_obs
      u1 s1 v1 u2 s2 v2
    Matrix.of fun i j => wm_wp.1 i 0 + wm_wp.2 i j
  else weights

end IEnKSTransformModule

namespace IEnKSBundleModule

/-- `IEnKSBundleModule._get_dh_dw`: the finite-difference Jacobian
`normed_perts / ε` (the inherited `weights_perts_inv` argument is unused). -/
def get_dh_dw {k m : ℕ} (epsilon : ℝ)
    (normed_perts : Matrix (Fin k) (Fin m) ℝ)
    (_weights_perts_inv : Matrix (Fin k) (Fin k) ℝ) :
    Matrix (Fin k) (Fin m) ℝ :=
  Matrix.of fun i j => normed_perts i j / epsilon

/-- `IEnKSBundleModule._update_weights` — inherited from the transform
module with the bundle `_get_dh_dw` override. -/
def update_weights {k m : ℕ} (epsilon tau : ℝ)
    (weights : Matrix (Fin k) (Fin k) ℝ)
    (normed_perts : Matrix (Fin k) (Fin m) ℝ)
    (normed_obs : Matrix (Fin 1) (Fin m) ℝ)
    (u1 : Matrix (Fin k) (Fin k) ℝ) (s1 : Fin k → ℝ)
    (v1 : Matrix (Fin k) (Fin k) ℝ)
    (u2 : Matrix (Fin k) (Fin k) ℝ) (s2 : Fin k → ℝ)
    (v2 : Matrix (Fin k) (Fin k) ℝ) :
    Matrix (Fin k) (Fin 1) ℝ × Matrix (Fin k) (Fin k) ℝ :=
  let dec := IEnKSTransformModule.decompose_weights weights u1 s1 v1
  let dh_dw := get_dh_dw epsilon normed_perts dec.2.1
  let grad := IEnKSTransformModule.get_gradient dec.1 dh_dw normed_obs
  let cov_perts := IEnKSTransformModule.update_covariance tau dec.2.2 dh_dw
    u2 s2 v2
  let delta_weight := cov_perts.1 * grad
  let w_mean := dec.1 - tau • delta_weight
  (w_mean, cov_perts.2)

/-- `IEnKSBundleModule.forward` — inherited from the transform module. -/
def forward {k m : ℕ} (epsilon tau : ℝ)
    (weights : Matrix (Fin k) (Fin k) ℝ)
    (normed_perts : Matrix (Fin k) (Fin m) ℝ)
    (normed_obs : Matrix (Fin 1) (Fin m) ℝ)
    (u1 : Matrix (Fin k) (Fin k) ℝ) (s1 : Fin k → ℝ)
    (v1 : Matrix (Fin k) (Fin k) ℝ)
    (u2 : Matrix (Fin k) (Fin k) ℝ) (s2 : Fin k → ℝ)
    (v2 : Matrix (Fin k) (Fin k) ℝ) : Matrix (Fin k) (Fin k) ℝ :=
  if 0 < m then
    let wm_wp := update_weights epsilon tau weights normed_perts normed_obs
      u1 s1 v1 u2 s2 v2
    Matrix.of fun i j => wm_wp.1 i 0 + wm_wp.2 i j
  else weights

end IEnKSBundleModule

section IEnKSTheorems

/-- C6: with a zero observation dimension, one IEnKS step — transform and
bundle variant alike — is a no-op returning the input weights unchanged,
for any weights, any learning rate/perturbation scale, and any eigensolver
outputs. -/
theorem ienks_zero_obs_dim_noop {k : ℕ}
    (weights : Matrix (Fin k) (Fin k) ℝ)
    (Pn : Matrix (Fin k) (Fin 0) ℝ) (yn : Matrix (Fin 1) (Fin 0) ℝ)
    (tau epsilon : ℝ)
    (u1 : Matrix (Fin k) (Fin k) ℝ) (s1 : Fin k → ℝ)
    (v1 : Matrix (Fin k) (Fin k) ℝ)
    (u2 : Matrix (Fin k) (Fin k) ℝ) (s2 : Fin k → ℝ)
    (v2 : Matrix (Fin k) (Fin k) ℝ) :
    IEnKSTransformModule.forward tau weights Pn yn u1 s1 v1 u2 s2 v2 =
        weights ∧
      IEnKSBundleModule.forward epsilon tau weights Pn yn u1 s1 v1 u2 s2 v2 =
        weights := by
  constructor <;>
    simp [IEnKSTransformModule.forward, IEnKSBundleModule.forward]

/-- An SVD of a positive multiple of the identity has all singular values
equal to that multiple, and its orthogonal factors cancel. -/
theorem isSVDFor_smul_one {k : ℕ} {c : ℝ} (hc : 0 < c)
    {u : Matrix (Fin k) (Fin k) ℝ} {s : Fin k → ℝ}
    {v : Matrix (Fin k) (Fin k) ℝ}
    (h : IsSVDFor (c • (1 : Matrix (Fin k) (Fin k) ℝ)) u s v) :
    (∀ i, s i = c) ∧ u * vᵀ = 1 := by
  obtain ⟨hM, hutu, huut, hvtv, hvvt, hs⟩ := h
  have hconj : uᵀ * (c • (1 : Matrix (Fin k) (Fin k) ℝ)) * v =
      uᵀ * (u * Matrix.diagonal s * vᵀ) * v := by rw [← hM]
  have hL : uᵀ * (c • (1 : Matrix (Fin k) (Fin k) ℝ)) * v = c • (uᵀ * v) := by
    rw [Matrix.mul_smul, Matrix.mul_one, Matrix.smul_mul]
  have hR : uᵀ * (u * Matrix.diagonal s * vᵀ) * v = Matrix.diagonal s := by
    calc uᵀ * (u * Matrix.diagonal s * vᵀ) * v
        = (uᵀ * u) * Matrix.diagonal s * (vᵀ * v) := by
          simp only [Matrix.mul_assoc]
      _ = Matrix.diagonal s := by rw [hutu, hvtv, Matrix.one_mul, Matrix.mul_one]
  have hdiag : c • (uᵀ * v) = Matrix.diagonal s := by rw [← hL, hconj, hR]
  have hQ : uᵀ * v = Matrix.diagonal (c⁻¹ • s) := by
    have h9 := congrArg (fun M => c⁻¹ • M) hdiag
    simp only [smul_smul, inv_mul_cancel₀ hc.ne', one_smul] at h9
    rw [h9]
    rw [Matrix.diagonal_smul]
  have horth : (uᵀ * v)ᵀ * (uᵀ * v) = 1 := by
    rw [Matrix.transpose_mul, Matrix.transpose_transpose]
    calc vᵀ * u * (uᵀ * v) = vᵀ * (u * uᵀ) * v := by simp only [Matrix.mul_assoc]
      _ = 1 := by rw [huut, Matrix.mul_one, hvtv]
  rw [hQ, Matrix.diagonal_transpose, Matrix.diagonal_mul_diagonal] at horth
  have hdd : ∀ i, (c⁻¹ * s i) * (c⁻¹ * s i) = 1 := by
    intro i
    have h1 : (Matrix.diagonal fun i => (c⁻¹ • s) i * (c⁻¹ • s) i) i i =
        (1 : Matrix (Fin k) (Fin k) ℝ) i i := by rw [horth]
    simp only [Matrix.diagonal_apply_eq, Matrix.one_apply_eq,
      Pi.smul_apply, smul_eq_mul] at h1
    linear_combination h1
  have hsc : ∀ i, s i = c := by
    intro i
    rcases mul_self_eq_one_iff.mp (hdd i) with hone | hneg
    · have : s i = c * (c⁻¹ * s i) := by
        rw [← mul_assoc, mul_inv_cancel₀ hc.ne', one_mul]
      rw [this, hone, mul_one]
    · exfalso
      have hnn : 0 ≤ c⁻¹ * s i := mul_nonneg (inv_nonneg.mpr hc.le) (hs i)
      rw [hneg] at hnn
      linarith
  refine ⟨hsc, ?_⟩
  have hsfun : s = fun _ => c := funext hsc
  have hdiagc : Matrix.diagonal s = c • (1 : Matrix (Fin k) (Fin k) ℝ) := by
    rw [hsfun]
    ext i j
    simp [Matrix.diagonal_apply, Matrix.one_apply, mul_ite, mul_one, mul_zero]
  have : c • (1 : Matrix (Fin k) (Fin k) ℝ) = c • (u * vᵀ) := by
    calc c • (1 : Matrix (Fin k) (Fin k) ℝ)
        = u * Matrix.diagonal s * vᵀ := hM
      _ = u * (c • (1 : Matrix (Fin k) (Fin k) ℝ)) * vᵀ := by rw [hdiagc]
      _ = c • (u * vᵀ) := by
          rw [Matrix.mul_smul, Matrix.mul_one, Matrix.smul_mul]
  have := congrArg (fun M => c⁻¹ • M) this
  simpa [smul_smul, inv_mul_cancel₀ hc.ne'] using this.symm

/-- The diagonal matrix of the constant-one vector is the identity. -/
theorem diagonal_one_fun {k : ℕ} :
    Matrix.diagonal (fun _ : Fin k => (1 : ℝ)) = 1 := by
  ext i j
  simp [Matrix.diagonal_apply, Matrix.one_apply]

/-- Unfolding `IEnKSTransformModule.forward` on a positive observation
dimension. -/
theorem ienks_forward_pos {k m : ℕ} (hm : 0 < m) (tau : ℝ)
    (weights : Matrix (Fin k) (Fin k) ℝ)
    (Pn : Matrix (Fin k) (Fin m) ℝ) (yn : Matrix (Fin 1) (Fin m) ℝ)
    (u1 : Matrix (Fin k) (Fin k) ℝ) (s1 : Fin k → ℝ)
    (v1 : Matrix (Fin k) (Fin k) ℝ)
    (u2 : Matrix (Fin k) (Fin k) ℝ) (s2 : Fin k → ℝ)
    (v2 : Matrix (Fin k) (Fin k) ℝ) :
    IEnKSTransformModule.forward tau weights Pn yn u1 s1 v1 u2 s2 v2 =
      Matrix.of fun i j =>
        (IEnKSTransformModule.update_weights tau weights Pn yn
          u1 s1 v1 u2 s2 v2).1 i 0 +
        (IEnKSTransformModule.update_weights tau weights Pn yn
          u1 s1 v1 u2 s2 v2).2 i j := by
  show (if 0 < m then _ else _) = _
  rw [if_pos hm]

/-- Splitting the identity weights yields a zero mean column. -/
theorem split_weights_one_fst {k : ℕ} :
    (IEnKSTransformModule.split_weights (1 : Matrix (Fin k) (Fin k) ℝ)).1 =
      0 := by
  ext i j
  simp [IEnKSTransformModule.split_weights, diagonal_add]

/-- Splitting the identity weights yields the identity perturbation part. -/
theorem split_weights_one_snd {k : ℕ} :
    (IEnKSTransformModule.split_weights (1 : Matrix (Fin k) (Fin k) ℝ)).2 =
      1 := by
  ext i j
  have h0 := congrFun (congrFun (@split_weights_one_fst k) i) 0
  simp only [IEnKSTransformModule.split_weights] at h0 ⊢
  show (1 : Matrix (Fin k) (Fin k) ℝ) i j - _ = (1 : Matrix (Fin k) (Fin k) ℝ) i j
  rw [h0]
  simp

/-- With identity input weights and zero innovation, the updated weight mean
of one transform step is zero (for any perturbations and learning rate). -/
theorem update_weights_mean_zero {k m : ℕ} (tau : ℝ)
    (Pn : Matrix (Fin k) (Fin m) ℝ)
    (u1 : Matrix (Fin k) (Fin k) ℝ) (s1 : Fin k → ℝ)
    (v1 : Matrix (Fin k) (Fin k) ℝ)
    (u2 : Matrix (Fin k) (Fin k) ℝ) (s2 : Fin k → ℝ)
    (v2 : Matrix (Fin k) (Fin k) ℝ) :
    (IEnKSTransformModule.update_weights tau 1 Pn 0 u1 s1 v1 u2 s2 v2).1 =
      0 := by
  have hmean : (IEnKSTransformModule.decompose_weights
      (1 : Matrix (Fin k) (Fin k) ℝ) u1 s1 v1).1 = 0 := split_weights_one_fst
  show (IEnKSTransformModule.decompose_weights 1 u1 s1 v1).1 - tau •
    ((IEnKSTransformModule.update_covariance tau _ _ u2 s2 v2).1 *
      IEnKSTransformModule.get_gradient
        (IEnKSTransformModule.decompose_weights 1 u1 s1 v1).1 _ 0) = 0
  rw [hmean]
  have hgrad : ∀ (dh : Matrix (Fin k) (Fin m) ℝ),
      IEnKSTransformModule.get_gradient (0 : Matrix (Fin k) (Fin 1) ℝ) dh
        (0 : Matrix (Fin 1) (Fin m) ℝ) = 0 := by
    intro dh
    simp [IEnKSTransformModule.get_gradient, matrix_product]
  rw [hgrad, Matrix.mul_zero, smul_zero, sub_zero]

/-- The perturbation part returned by a transform step, unfolded: it is the
reconstruction from the second svd oracle with re-inverted, re-scaled and
square-rooted singular values. -/
theorem update_weights_perts_eq {k m : ℕ} (tau : ℝ)
    (weights : Matrix (Fin k) (Fin k) ℝ)
    (Pn : Matrix (Fin k) (Fin m) ℝ) (yn : Matrix (Fin 1) (Fin m) ℝ)
    (u1 : Matrix (Fin k) (Fin k) ℝ) (s1 : Fin k → ℝ)
    (v1 : Matrix (Fin k) (Fin k) ℝ)
    (u2 : Matrix (Fin k) (Fin k) ℝ) (s2 : Fin k → ℝ)
    (v2 : Matrix (Fin k) (Fin k) ℝ) :
    (IEnKSTransformModule.update_weights tau weights Pn yn u1 s1 v1
      u2 s2 v2).2 =
      rev_svd u2 (fun i => Real.sqrt ((1 / (max (s2 i) 0 + 0)) *
        ((k : ℝ) - 1))) v2 := rfl

/-- C7 amended: one IEnKS transform step with zero innovation, `τ = 1` and a
**zero** normalized perturbation matrix, starting from identity weights,
returns the identity weights — for every valid pair of `torch.svd` outputs.
(For nonzero perturbations the identity is not a fixed point; see the
counterexample.) -/
theorem ienks_transform_fixed_point_zero_perts {k m : ℕ} (hk : 2 ≤ k)
    (hm : 0 < m)
    (u1 : Matrix (Fin k) (Fin k) ℝ) (s1 : Fin k → ℝ)
    (v1 : Matrix (Fin k) (Fin k) ℝ)
    (u2 : Matrix (Fin k) (Fin k) ℝ) (s2 : Fin k → ℝ)
    (v2 : Matrix (Fin k) (Fin k) ℝ)
    (h1 : IsSVDFor (IEnKSTransformModule.split_weights
      (1 : Matrix (Fin k) (Fin k) ℝ)).2 u1 s1 v1)
    (h2 : IsSVDFor (IEnKSTransformModule.updated_prec_of 1
      (1 : Matrix (Fin k) (Fin k) ℝ) (0 : Matrix (Fin k) (Fin m) ℝ)
      u1 s1 v1) u2 s2 v2) :
    IEnKSTransformModule.forward 1 1 (0 : Matrix (Fin k) (Fin m) ℝ)
      (0 : Matrix (Fin 1) (Fin m) ℝ) u1 s1 v1 u2 s2 v2 = 1 := by
  have hk1 : (0 : ℝ) < (k : ℝ) - 1 := by
    have : (2 : ℝ) ≤ (k : ℝ) := by exact_mod_cast hk
    linarith
  have hup : IEnKSTransformModule.updated_prec_of 1
      (1 : Matrix (Fin k) (Fin k) ℝ) (0 : Matrix (Fin k) (Fin m) ℝ)
      u1 s1 v1 = ((k : ℝ) - 1) • 1 := by
    simp [IEnKSTransformModule.updated_prec_of,
      IEnKSTransformModule.get_dh_dw, matrix_product, diagonal_add]
  rw [hup] at h2
  obtain ⟨hs2, huv2⟩ := isSVDFor_smul_one hk1 h2
  have hU1 := @update_weights_mean_zero k m 1 0 u1 s1 v1 u2 s2 v2
  have hsp : (fun i => Real.sqrt ((1 / (max (s2 i) 0 + 0)) *
      ((k : ℝ) - 1))) = fun _ => (1 : ℝ) := by
    funext i
    rw [hs2 i, add_zero, max_eq_left hk1.le, one_div,
      inv_mul_cancel₀ hk1.ne', Real.sqrt_one]
  have hU2 : (IEnKSTransformModule.update_weights 1 1
      (0 : Matrix (Fin k) (Fin m) ℝ) (0 : Matrix (Fin 1) (Fin m) ℝ)
      u1 s1 v1 u2 s2 v2).2 = 1 := by
    rw [update_weights_perts_eq, hsp, rev_svd, diagonal_one_fun,
      Matrix.mul_one, huv2]
  rw [ienks_forward_pos hm]
  ext i j
  rw [Matrix.of_apply, hU1, hU2]
  simp

/-- Witness for the amended C7 at `k = 2`, `m = 1`, identity svd factors. -/
theorem ienks_transform_fixed_point_witness :
    IsSVDFor (IEnKSTransformModule.split_weights
        (1 : Matrix (Fin 2) (Fin 2) ℝ)).2 1 (fun _ => 1) 1 ∧
      IsSVDFor (IEnKSTransformModule.updated_prec_of 1
        (1 : Matrix (Fin 2) (Fin 2) ℝ) (0 : Matrix (Fin 2) (Fin 1) ℝ)
        1 (fun _ => 1) 1) 1 (fun _ => 1) 1 ∧
      IEnKSTransformModule.forward 1 1 (0 : Matrix (Fin 2) (Fin 1) ℝ)
        (0 : Matrix (Fin 1) (Fin 1) ℝ) 1 (fun _ => 1) 1 1 (fun _ => 1) 1 =
        1 := by
  have hid : ∀ M : Matrix (Fin 2) (Fin 2) ℝ, M = 1 →
      IsSVDFor M 1 (fun _ => 1) 1 := by
    intro M hM
    subst hM
    refine ⟨?_, by simp, by simp, by simp, by simp, fun i => zero_le_one⟩
    rw [diagonal_one_fun]
    simp
  have h1 := hid _ split_weights_one_snd
  have hupw : IEnKSTransformModule.updated_prec_of 1
      (1 : Matrix (Fin 2) (Fin 2) ℝ) (0 : Matrix (Fin 2) (Fin 1) ℝ)
      1 (fun _ => 1) 1 = 1 := by
    rw [show IEnKSTransformModule.updated_prec_of 1
        (1 : Matrix (Fin 2) (Fin 2) ℝ) (0 : Matrix (Fin 2) (Fin 1) ℝ)
        1 (fun _ => 1) 1 = (((2 : ℕ) : ℝ) - 1) • 1 by
      simp [IEnKSTransformModule.updated_prec_of,
        IEnKSTransformModule.get_dh_dw, matrix_product, diagonal_add]]
    norm_num
  have h2 := hid _ hupw
  exact ⟨h1, h2, ienks_transform_fixed_point_zero_perts le_rfl one_pos
    1 (fun _ => 1) 1 1 (fun _ => 1) 1 h1 h2⟩

/-- The `normed_perts` of the C7 counterexample: `[[1], [0]]` (`k = 2`, one
observation column). -/
def c7Perts : Matrix (Fin 2) (Fin 1) ℝ := Matrix.of ![![1], ![0]]

/-- C7 counterexample: starting from identity weights with zero innovation
and `τ = 1` but a **nonzero** normalized perturbation matrix
(`normed_perts = [[1],[0]]`, `k = 2`), one IEnKS transform step does *not*
return the identity weights: the precision update still contracts the
spread, giving `W'₀₀ = sqrt(1/2) ≠ 1`.  The two `IsSVDFor` conjuncts show
the supplied eigensolver outputs are valid for the operands the step
decomposes. -/
theorem ienks_identity_not_fixed_point :
    IsSVDFor (IEnKSTransformModule.split_weights
        (1 : Matrix (Fin 2) (Fin 2) ℝ)).2 1 (fun _ => 1) 1 ∧
      IsSVDFor (IEnKSTransformModule.updated_prec_of 1
        (1 : Matrix (Fin 2) (Fin 2) ℝ) c7Perts 1 (fun _ => 1) 1)
        1 ![2, 1] 1 ∧
      IEnKSTransformModule.forward 1 1 c7Perts
        (0 : Matrix (Fin 1) (Fin 1) ℝ) 1 (fun _ => 1) 1 1 ![2, 1] 1 ≠ 1 := by
  have h1 : IsSVDFor (IEnKSTransformModule.split_weights
      (1 : Matrix (Fin 2) (Fin 2) ℝ)).2 1 (fun _ => 1) 1 := by
    rw [split_weights_one_snd]
    refine ⟨?_, by simp, by simp, by simp, by simp, fun i => zero_le_one⟩
    rw [diagonal_one_fun]
    simp
  have hup : IEnKSTransformModule.updated_prec_of 1
      (1 : Matrix (Fin 2) (Fin 2) ℝ) c7Perts 1 (fun _ => 1) 1 =
      Matrix.diagonal ![2, 1] := by
    ext i j
    fin_cases i <;> fin_cases j <;>
      simp [IEnKSTransformModule.updated_prec_of,
        IEnKSTransformModule.decompose_weights,
        IEnKSTransformModule.split_weights,
        IEnKSTransformModule.get_dh_dw, matrix_product, diagonal_add, svd,
        rev_svd, c7Perts, Matrix.mul_apply, Matrix.transpose_apply,
        Matrix.one_apply, Matrix.diagonal_apply, Fin.sum_univ_two,
        Fin.sum_univ_one, Matrix.vecHead, Matrix.vecTail] <;>
      norm_num
  have h2 : IsSVDFor (IEnKSTransformModule.updated_prec_of 1
      (1 : Matrix (Fin 2) (Fin 2) ℝ) c7Perts 1 (fun _ => 1) 1)
      1 ![2, 1] 1 := by
    rw [hup]
    refine ⟨by simp, by simp, by simp, by simp, by simp, ?_⟩
    intro i
    fin_cases i <;> norm_num
  refine ⟨h1, h2, ?_⟩
  intro hfix
  have hentry : IEnKSTransformModule.forward 1 1 c7Perts
      (0 : Matrix (Fin 1) (Fin 1) ℝ) 1 (fun _ => 1) 1 1 ![2, 1] 1 0 0 =
      (1 : Matrix (Fin 2) (Fin 2) ℝ) 0 0 := by rw [hfix]
  have hU1 := @update_weights_mean_zero 2 1 1 c7Perts
    1 (fun _ => 1) 1 1 ![2, 1] 1
  have hval : IEnKSTransformModule.forward 1 1 c7Perts
      (0 : Matrix (Fin 1) (Fin 1) ℝ) 1 (fun _ => 1) 1 1 ![2, 1] 1 0 0 =
      Real.sqrt (1 / 2) := by
    rw [ienks_forward_pos one_pos, Matrix.of_apply, hU1,
      update_weights_perts_eq]
    simp only [rev_svd, Matrix.zero_apply, zero_add]
    rw [show ((1 : Matrix (Fin 2) (Fin 2) ℝ) *
      Matrix.diagonal (fun i => Real.sqrt ((1 / (max ((![2, 1] : Fin 2 → ℝ) i)
        0 + 0)) * (((2 : ℕ) : ℝ) - 1))) * (1 : Matrix (Fin 2) (Fin 2) ℝ)ᵀ) =
      Matrix.diagonal (fun i => Real.sqrt ((1 / (max ((![2, 1] : Fin 2 → ℝ) i)
        0 + 0)) * (((2 : ℕ) : ℝ) - 1))) by
        rw [Matrix.one_mul, Matrix.transpose_one, Matrix.mul_one]]
    rw [Matrix.diagonal_apply_eq]
    norm_num
  rw [hval, Matrix.one_apply_eq] at hentry
  have hsq := Real.sq_sqrt (show (0 : ℝ) ≤ 1 / 2 by norm_num)
  rw [hentry] at hsq
  norm_num at hsq

end IEnKSTheorems

/-!
## Shape-mismatch behaviour (C9)

To talk about *where* a dimension mismatch surfaces, the two engines are
re-embedded with the observation dimension of `normed_perts` and
`normed_obs` as separate type indices and with a trace of the operations
performed, in source order, up to the first failing one.  `torch.mm` raises
exactly when the inner dimensions differ; the preceding lines of
`ETKFWeightsModule.forward` (the Gram matrix `kernel_perts`, the `evd`
eigendecomposition and `cov_analysed`) cannot fail, so on a mismatch the
decomposition has already been performed when `kernel_obs` raises.
-/

namespace ETKFWeightsModule

/-- `ETKFWeightsModule.forward` with a step trace: lines 71–75 (`reg_value`,
`kernel_perts`, `evd`, `cov_analysed`) execute unconditionally; line 77
(`kernel_obs = torch.mm(normed_perts, normed_obs.t())`) raises a size
mismatch unless the observation dimensions agree, in which case the
remaining lines produce the result of `forward`. -/
def forwardTrace {k mp mo : ℕ} (inf_factor : ℝ)
    (normed_perts : Matrix (Fin k) (Fin mp) ℝ)
    (normed_obs : Matrix (Fin 1) (Fin mo) ℝ)
    (evalsRaw : Fin k → ℝ) (evects : Matrix (Fin k) (Fin k) ℝ) :
    List String × Option (ETKFOut k) :=
  if h : mo = mp then
    (["kernel_perts", "evd", "cov_analysed", "kernel_obs", "w_mean",
        "w_perts", "weights"],
      some (forward inf_factor normed_perts
        (normed_obs.submatrix id (Fin.cast h.symm)) evalsRaw evects))
  else
    (["kernel_perts", "evd", "cov_analysed"], none)

end ETKFWeightsModule

namespace IEnKSTransformModule

/-- `IEnKSTransformModule.forward` with a step trace.  The first statement,
`self._test_sizes(normed_perts, normed_obs)`, lives in the missing
`pytassim/core/base.py` and is modelled from the spec (§7: shape mismatch
"detected before any decomposition, reported immediately"): it raises when
the observation dimensions differ, before anything else runs.  Otherwise the
update is performed only for a positive observation dimension, as in
`forward`. -/
def forwardTrace {k mp mo : ℕ} (tau : ℝ)
    (weights : Matrix (Fin k) (Fin k) ℝ)
    (normed_perts : Matrix (Fin k) (Fin mp) ℝ)
    (normed_obs : Matrix (Fin 1) (Fin mo) ℝ)
    (u1 : Matrix (Fin k) (Fin k) ℝ) (s1 : Fin k → ℝ)
    (v1 : Matrix (Fin k) (Fin k) ℝ)
    (u2 : Matrix (Fin k) (Fin k) ℝ) (s2 : Fin k → ℝ)
    (v2 : Matrix (Fin k) (Fin k) ℝ) :
    List String × Option (Matrix (Fin k) (Fin k) ℝ) :=
  if h : mo = mp then
    if 0 < mp then
      (["test_sizes", "svd_w_perts", "svd_updated_prec", "update"],
        some (forward tau weights normed_perts
          (normed_obs.submatrix id (Fin.cast h.symm)) u1 s1 v1 u2 s2 v2))
    else (["test_sizes"], some weights)
  else (["test_sizes"], none)

end IEnKSTransformModule

section ShapeMismatch

/-- The mismatched observation row of the C9 counterexample (2 observation
columns against 1 perturbation column). -/
def c9Obs : Matrix (Fin 1) (Fin 2) ℝ := Matrix.of ![![1, 1]]

/-- C9 counterexample: at the concrete mismatched input (`normed_perts` with
1 observation column, `normed_obs` with 2), `ETKFWeightsModule.forward`
does report an error (no result), but only *after* performing the
eigendecomposition: `evd` is among the executed steps, so the mismatch is
not detected before the decomposition and partial computation does take
place. -/
theorem etkf_mismatch_after_decomposition :
    (ETKFWeightsModule.forwardTrace 1 c7Perts c9Obs ![0, 1] 1).2 = none ∧
      "evd" ∈ (ETKFWeightsModule.forwardTrace 1 c7Perts c9Obs ![0, 1] 1).1 := by
  constructor <;>
    simp [ETKFWeightsModule.forwardTrace]

/-- C9 amended: on mismatched observation dimensions both engines fail to
produce a result, but only the IEnKS engine (via its spec-modelled
`_test_sizes`) detects the mismatch before any decomposition; the ETKF
engine has no shape check and performs `kernel_perts`, `evd` and
`cov_analysed` before the mismatch surfaces at the `kernel_obs` product. -/
theorem shape_mismatch_detection {k mp mo : ℕ} (hne : mo ≠ mp)
    (inf_factor tau : ℝ) (weights : Matrix (Fin k) (Fin k) ℝ)
    (normed_perts : Matrix (Fin k) (Fin mp) ℝ)
    (normed_obs : Matrix (Fin 1) (Fin mo) ℝ)
    (evalsRaw : Fin k → ℝ) (evects : Matrix (Fin k) (Fin k) ℝ)
    (u1 : Matrix (Fin k) (Fin k) ℝ) (s1 : Fin k → ℝ)
    (v1 : Matrix (Fin k) (Fin k) ℝ)
    (u2 : Matrix (Fin k) (Fin k) ℝ) (s2 : Fin k → ℝ)
    (v2 : Matrix (Fin k) (Fin k) ℝ) :
    (ETKFWeightsModule.forwardTrace inf_factor normed_perts normed_obs
        evalsRaw evects).2 = none ∧
      (ETKFWeightsModule.forwardTrace inf_factor normed_perts normed_obs
        evalsRaw evects).1 = ["kernel_perts", "evd", "cov_analysed"] ∧
      (IEnKSTransformModule.forwardTrace tau weights normed_perts normed_obs
        u1 s1 v1 u2 s2 v2).2 = none ∧
      (IEnKSTransformModule.forwardTrace tau weights normed_perts normed_obs
        u1 s1 v1 u2 s2 v2).1 = ["test_sizes"] := by
  refine ⟨?_, ?_, ?_, ?_⟩ <;>
    simp [ETKFWeightsModule.forwardTrace, IEnKSTransformModule.forwardTrace,
      hne]

/-- Witness for the amended C9 at the concrete mismatched input. -/
theorem shape_mismatch_detection_witness :
    (2 : ℕ) ≠ 1 ∧
      (ETKFWeightsModule.forwardTrace 1 c7Perts c9Obs ![0, 1] 1).2 = none ∧
      (ETKFWeightsModule.forwardTrace 1 c7Perts c9Obs ![0, 1] 1).1 =
        ["kernel_perts", "evd", "cov_analysed"] ∧
      (IEnKSTransformModule.forwardTrace 1 1 c7Perts c9Obs
        1 (fun _ => 1) 1 1 (fun _ => 1) 1).2 = none ∧
      (IEnKSTransformModule.forwardTrace 1 1 c7Perts c9Obs
        1 (fun _ => 1) 1 1 (fun _ => 1) 1).1 = ["test_sizes"] := by
  have h := @shape_mismatch_detection 2 1 2 (by norm_num) 1 1 1 c7Perts c9Obs ![0, 1] 1 1 (fun _ => 1) 1 1
    (fun _ => 1) 1
  exact ⟨by norm_num, h.1, h.2.1, h.2.2.1, h.2.2.2⟩

end ShapeMismatch

/-!
## `BaseAssimilation.assimilate` (C10)

`pytassim/assimilation/base.py`, lines 266–301.  The abstract collaborators
(state/observation validation, analysis-time selection, smoother slicing,
pre/post transforms and `update_state`) are passed as functions; the second
component of the result records, in source order, which of them ran —
`_validate_state` and `_validate_observations` raise on invalid input, so
"ran" is the observable behaviour the claim speaks about.  A `warnings.warn`
call is recorded the same way. -/
def assimilate {σ Obs T : Type} (state : σ) (observations : List Obs)
    (analysis_time : Option T) (smoother : Bool)
    (get_analysis_time : σ → Option T → T)
    (sel_state : σ → T → σ) (sel_obs : Obs → T → Obs)
    (pre_transform : σ → List Obs → σ × List Obs)
    (update_state : σ → List Obs → T → σ)
    (post_transform : σ → σ → List Obs → σ) : σ × List String :=
  if observations.isEmpty then
    (state, ["warn_no_observations"])
  else
    let analysis_time2 := get_analysis_time state analysis_time
    let back_state := if smoother then state
      else sel_state state analysis_time2
    let observations2 := if smoother then observations
      else observations.map (fun o => sel_obs o analysis_time2)
    let pre_res := pre_transform back_state observations2
    let analysis := update_state pre_res.1 pre_res.2 analysis_time2
    let analysis2 := post_transform analysis pre_res.1 pre_res.2
    (analysis2,
      ["validate_state", "validate_observations", "get_analysis_time",
        "pre_transform", "update_state", "post_transform", "validate_state"])

/-- C10: with an empty (falsy) observations argument,
`BaseAssimilation.assimilate` warns and returns the background state itself,
unchanged — no state/observation validation, no analysis-time selection and
no `update_state` call happens. -/
theorem assimilate_no_observations {σ Obs T : Type} (state : σ)
    (analysis_time : Option T) (smoother : Bool)
    (get_analysis_time : σ → Option T → T)
    (sel_state : σ → T → σ) (sel_obs : Obs → T → Obs)
    (pre_transform : σ → List Obs → σ × List Obs)
    (update_state : σ → List Obs → T → σ)
    (post_transform : σ → σ → List Obs → σ) :
    assimilate state ([] : List Obs) analysis_time smoother
        get_analysis_time sel_state sel_obs pre_transform update_state
        post_transform =
      (state, ["warn_no_observations"]) := by
  simp [assimilate]

end

end Pytassim
